import Mathlib

/-!
Verification of the natural-gas price-analysis and storage-contract
repository (Task 1: `gas_price_analysis.py`, Task 2:
`price_storage_contract.py`).

The Python programs are shallowly embedded: calendar dates become a
`Date` structure with the proleptic-Gregorian day count (`toOrdinal`,
matching Python's `datetime.toordinal`), floating-point prices and
volumes become exact rationals, `numpy.interp` and sklearn's
`LinearRegression` become the explicit piecewise-linear and
ordinary-least-squares formulas they compute, and the two pandas
operations used (`pd.date_range(freq='M')` and `DateOffset(months=1)`)
become explicit month-end arithmetic.  Fallible steps (the `max` of an
empty `DatetimeIndex` flowing into `pd.date_range`) are modelled with
`Option`.
-/

namespace GasRepo

/-- A calendar date (year, month, day), as carried by the pandas
`Timestamp`s in the source. -/
structure Date where
  y : ℕ
  m : ℕ
  d : ℕ
deriving DecidableEq

/-- Gregorian leap-year test, as in Python's `calendar.isleap`. -/
def isLeap (y : ℕ) : Bool :=
  y % 4 == 0 && (y % 100 != 0 || y % 400 == 0)

/-- Number of days in a month of a given year. -/
def daysInMonth (y m : ℕ) : ℕ :=
  match m with
  | 1 => 31
  | 2 => if isLeap y then 29 else 28
  | 3 => 31
  | 4 => 30
  | 5 => 31
  | 6 => 30
  | 7 => 31
  | 8 => 31
  | 9 => 30
  | 10 => 31
  | 11 => 30
  | 12 => 31
  | _ => 31

/-- 1 in a leap year, 0 otherwise. -/
def leapBit (y : ℕ) : ℕ := if isLeap y then 1 else 0

/-- Number of days of year `y` that precede month `m`. -/
def daysBeforeMonth (y m : ℕ) : ℕ :=
  let lb : ℕ := leapBit y
  match m with
  | 1 => 0
  | 2 => 31
  | 3 => 59 + lb
  | 4 => 90 + lb
  | 5 => 120 + lb
  | 6 => 151 + lb
  | 7 => 181 + lb
  | 8 => 212 + lb
  | 9 => 243 + lb
  | 10 => 273 + lb
  | 11 => 304 + lb
  | 12 => 334 + lb
  | _ => 0

/-- Number of leap years in `1..n`. -/
def leapsUpTo (n : ℕ) : ℕ := n / 4 + n / 400 - n / 100

/-- Proleptic-Gregorian day count of a date, as Python's
`datetime.toordinal` (day 1 is 0001-01-01).  All date comparisons in the
source compare `Timestamp`s, i.e. this number. -/
def toOrdinal (dt : Date) : ℕ :=
  365 * (dt.y - 1) + leapsUpTo (dt.y - 1) + daysBeforeMonth dt.y dt.m + dt.d

/-- A well-formed calendar date. -/
def ValidDate (dt : Date) : Prop :=
  1 ≤ dt.y ∧ 1 ≤ dt.m ∧ dt.m ≤ 12 ∧ 1 ≤ dt.d ∧ dt.d ≤ daysInMonth dt.y dt.m

instance : DecidablePred ValidDate := fun dt => by
  unfold ValidDate; infer_instance

/-- Zero-based count of whole months from year 0: the month of a date on
a single integer axis. -/
def monthIndex (dt : Date) : ℕ := 12 * dt.y + (dt.m - 1)

/-- The last day (month-end date) of the month with index `mi`. -/
def monthEndOfIndex (mi : ℕ) : Date :=
  ⟨mi / 12, mi % 12 + 1, daysInMonth (mi / 12) (mi % 12 + 1)⟩

/-- `pd.date_range(start=a, end=b, freq='M').size`: the number of
month-end dates lying in the closed interval `[a, b]`. -/
def monthEndCount (a b : Date) : ℕ :=
  (List.range (monthIndex b + 1 - monthIndex a)).countP
    (fun k =>
      decide (toOrdinal a ≤ toOrdinal (monthEndOfIndex (monthIndex a + k)) ∧
              toOrdinal (monthEndOfIndex (monthIndex a + k)) ≤ toOrdinal b))

/-- `pd.DateOffset(months=1)` added to a date: step to the next month,
clamping the day to that month's length. -/
def addOneMonth (dt : Date) : Date :=
  let mi := monthIndex dt + 1
  ⟨mi / 12, mi % 12 + 1, min dt.d (daysInMonth (mi / 12) (mi % 12 + 1))⟩

/-- `pd.date_range(start, periods = n, freq='M')`: the first `n`
month-end dates on or after `start`. -/
def dateRangeMonthEnds (start : Date) (n : ℕ) : List Date :=
  let mi := monthIndex start
  let first := if toOrdinal start ≤ toOrdinal (monthEndOfIndex mi) then mi else mi + 1
  (List.range n).map (fun k => monthEndOfIndex (first + k))

/-! ### Task 1: `gas_price_analysis.py` -/

/-- `np.interp x xp fp` over the zipped points `(xp, fp)`: clamp outside
the node range, piecewise-linear inside, exact pass-through at nodes. -/
def npInterp (x : ℚ) : List (ℚ × ℚ) → ℚ
  | [] => 0
  | [p] => p.2
  | p :: q :: rest =>
      if x ≤ p.1 then p.2
      else if x ≤ q.1 then p.2 + (q.2 - p.2) * (x - p.1) / (q.1 - p.1)
      else npInterp x (q :: rest)

/-- Sum of the abscissas of a point list. -/
def Sx (l : List (ℚ × ℚ)) : ℚ := (l.map (fun p => p.1)).sum

/-- Sum of the ordinates of a point list. -/
def Sy (l : List (ℚ × ℚ)) : ℚ := (l.map (fun p => p.2)).sum

/-- Sum of squared abscissas. -/
def Sxx (l : List (ℚ × ℚ)) : ℚ := (l.map (fun p => p.1 * p.1)).sum

/-- Sum of the products abscissa × ordinate. -/
def Sxy (l : List (ℚ × ℚ)) : ℚ := (l.map (fun p => p.1 * p.2)).sum

/-- `n·Σx² − (Σx)²`, the denominator of the least-squares slope. -/
def olsDen (l : List (ℚ × ℚ)) : ℚ := (l.length : ℚ) * Sxx l - (Sx l) ^ 2

/-- Slope fitted by `sklearn.linear_model.LinearRegression`. -/
def olsSlope (l : List (ℚ × ℚ)) : ℚ :=
  ((l.length : ℚ) * Sxy l - Sx l * Sy l) / olsDen l

/-- Intercept fitted by `sklearn.linear_model.LinearRegression`. -/
def olsIntercept (l : List (ℚ × ℚ)) : ℚ :=
  (Sy l - olsSlope l * Sx l) / (l.length : ℚ)

/-- `model.predict` of the fitted line at abscissa `x`. -/
def olsPredict (l : List (ℚ × ℚ)) (x : ℚ) : ℚ :=
  olsIntercept l + olsSlope l * x

/-- Minimum ordinal over a date column (`data['Dates'].min()`). -/
def ordsMin (dates : List Date) : ℕ :=
  match dates with
  | [] => 0
  | d :: ds => ds.foldl (fun a e => min a (toOrdinal e)) (toOrdinal d)

/-- Maximum ordinal over a date column (`data['Dates'].max()`). -/
def ordsMax (dates : List Date) : ℕ :=
  match dates with
  | [] => 0
  | d :: ds => ds.foldl (fun a e => max a (toOrdinal e)) (toOrdinal d)

/-- The date attaining `data['Dates'].max()`. -/
def maxDateOf (dates : List Date) : Date :=
  match dates with
  | [] => ⟨1, 1, 1⟩
  | d :: ds => ds.foldl (fun a e => if toOrdinal a < toOrdinal e then e else a) d

/-- The `(Date_ordinal, Prices)` point list both branches of
`estimate_price` work on. -/
def ordPoints (dates : List Date) (prices : List ℚ) : List (ℚ × ℚ) :=
  (dates.map (fun d => ((toOrdinal d : ℚ)))).zip prices

/-- `estimate_price(data, input_date)` from `gas_price_analysis.py`:
interpolate with `np.interp` over ordinal dates when the query lies in
`[min_date, max_date]`, otherwise evaluate the least-squares line fitted
on the whole series at the query ordinal. -/
def estimate_price (dates : List Date) (prices : List ℚ) (input_date : Date) : ℚ :=
  let pts := ordPoints dates prices
  if ordsMin dates ≤ toOrdinal input_date ∧ toOrdinal input_date ≤ ordsMax dates then
    npInterp (toOrdinal input_date : ℚ) pts
  else
    olsPredict pts (toOrdinal input_date : ℚ)

/-- The `(Time, Prices)` points of `extrapolate_future_prices`: prices
against the integer index 0,1,2,… of the rows. -/
def indexPoints (prices : List ℚ) (n : ℕ) : List (ℚ × ℚ) :=
  ((List.range n).map (fun i : ℕ => ((i : ℚ)))).zip prices

/-- `extrapolate_future_prices(data, months)` from
`gas_price_analysis.py`: fit a least-squares line of price against row
index, predict at indices `n .. n+months-1`, and pair the predictions
with the month-end dates starting one calendar month after the last
observed date. -/
def extrapolate_future_prices (dates : List Date) (prices : List ℚ) (months : ℕ) :
    List (Date × ℚ) :=
  let n := dates.length
  let pts := indexPoints prices n
  let future_prices :=
    (List.range months).map (fun k => olsPredict pts ((n + k : ℕ) : ℚ))
  let future_dates := dateRangeMonthEnds (addOneMonth (maxDateOf dates)) months
  future_dates.zip future_prices

/-- The mutable DataFrame of Task 1: the `Dates` and `Prices` columns
plus the helper columns the two functions write into it
(`data['Time'] = np.arange(len(data))`,
`data['Date_ordinal'] = data['Dates'].apply(lambda x: x.toordinal())`). -/
structure GasDataFrame where
  dates : List Date
  prices : List ℚ
  timeCol : Option (List ℕ)
  ordCol : Option (List ℕ)
deriving DecidableEq

/-- `estimate_price` with its effect on the caller's DataFrame made
explicit: it adds the `Date_ordinal` column and returns the estimate. -/
def estimate_price_df (df : GasDataFrame) (input_date : Date) : GasDataFrame × ℚ :=
  (⟨df.dates, df.prices, df.timeCol, some (df.dates.map toOrdinal)⟩,
   estimate_price df.dates df.prices input_date)

/-- `extrapolate_future_prices` with its effect on the caller's
DataFrame made explicit: it adds the `Time` column and returns the
extrapolated `(date, price)` rows. -/
def extrapolate_future_prices_df (df : GasDataFrame) (months : ℕ) :
    GasDataFrame × List (Date × ℚ) :=
  (⟨df.dates, df.prices, some (List.range df.dates.length), df.ordCol⟩,
   extrapolate_future_prices df.dates df.prices months)

/-! ### Task 2: `price_storage_contract.py` -/

/-- Timestamp-equality membership test (`current_date in injection_dates`). -/
def dmem (d : Date) (l : List Date) : Bool :=
  l.any (fun e => toOrdinal e == toOrdinal d)

/-- `list(dates).index(current_date)`: index of the first list entry
denoting the same instant. -/
def dIndex (d : Date) (l : List Date) : ℕ :=
  l.findIdx (fun e => toOrdinal e == toOrdinal d)

/-- Insert a date into a strictly ascending duplicate-free date list,
keeping it strictly ascending and duplicate-free (by instant). -/
def insertDate (d : Date) : List Date → List Date
  | [] => [d]
  | e :: es =>
      if toOrdinal d < toOrdinal e then d :: e :: es
      else if toOrdinal d = toOrdinal e then e :: es
      else e :: insertDate d es

/-- `sorted(set(injection_dates) | set(withdrawal_dates))`: the strictly
ascending deduplicated list of all event dates. -/
def sortedUniqueDates (l : List Date) : List Date := l.foldr insertDate []

/-- The accumulators of the simulation loop, plus the list of diagnostic
messages printed so far (each records whether it was the injection or
the withdrawal guard that failed, and on which date). -/
structure ContractState where
  volume : ℚ
  purchase : ℚ
  sales : ℚ
  iwCost : ℚ
  transCost : ℚ
  diags : List (Bool × Date)
deriving DecidableEq

/-- The all-zero state the loop starts from. -/
def initState : ContractState := ⟨0, 0, 0, 0, 0, []⟩

/-- The injection half of one loop iteration of
`price_storage_contract`. -/
def injStep (injection_dates : List Date) (purchase_prices : List ℚ)
    (injection_rate max_storage injection_withdrawal_cost transportation_cost : ℚ)
    (d : Date) (s : ContractState) : ContractState :=
  if dmem d injection_dates then
    if s.volume ≤ max_storage - injection_rate then
      { s with volume := s.volume + injection_rate,
               purchase := s.purchase +
                 injection_rate * purchase_prices.getD (dIndex d injection_dates) 0,
               iwCost := s.iwCost + injection_withdrawal_cost,
               transCost := s.transCost + transportation_cost }
    else
      { s with diags := s.diags ++ [(true, d)] }
  else s

/-- The withdrawal half of one loop iteration of
`price_storage_contract`. -/
def wdrStep (withdrawal_dates : List Date) (sale_prices : List ℚ)
    (withdrawal_rate injection_withdrawal_cost transportation_cost : ℚ)
    (d : Date) (s : ContractState) : ContractState :=
  if dmem d withdrawal_dates then
    if s.volume ≥ withdrawal_rate then
      { s with volume := s.volume - withdrawal_rate,
               sales := s.sales +
                 withdrawal_rate * sale_prices.getD (dIndex d withdrawal_dates) 0,
               iwCost := s.iwCost + injection_withdrawal_cost,
               transCost := s.transCost + transportation_cost }
    else
      { s with diags := s.diags ++ [(false, d)] }
  else s

/-- One full iteration of the date loop: the injection check, then the
withdrawal check on the updated state. -/
def stepDate (injection_dates withdrawal_dates : List Date)
    (purchase_prices sale_prices : List ℚ)
    (injection_rate withdrawal_rate max_storage
     injection_withdrawal_cost transportation_cost : ℚ)
    (d : Date) (s : ContractState) : ContractState :=
  wdrStep withdrawal_dates sale_prices
    withdrawal_rate injection_withdrawal_cost transportation_cost d
    (injStep injection_dates purchase_prices
      injection_rate max_storage injection_withdrawal_cost transportation_cost d s)

/-- The date loop of `price_storage_contract` over a list of dates. -/
def simulate (injection_dates withdrawal_dates : List Date)
    (purchase_prices sale_prices : List ℚ)
    (injection_rate withdrawal_rate max_storage
     injection_withdrawal_cost transportation_cost : ℚ)
    (all_dates : List Date) (s : ContractState) : ContractState :=
  all_dates.foldl
    (fun s d =>
      stepDate injection_dates withdrawal_dates purchase_prices sale_prices
        injection_rate withdrawal_rate max_storage
        injection_withdrawal_cost transportation_cost d s) s

/-- `injection_dates.min()` as an `Option` (`NaT` on an empty index). -/
def minDateOf? (dates : List Date) : Option Date :=
  match dates with
  | [] => none
  | d :: ds => some (ds.foldl (fun a e => if toOrdinal e < toOrdinal a then e else a) d)

/-- `withdrawal_dates.max()` as an `Option` (`NaT` on an empty index). -/
def maxDateOf? (dates : List Date) : Option Date :=
  match dates with
  | [] => none
  | d :: ds => some (ds.foldl (fun a e => if toOrdinal a < toOrdinal e then e else a) d)

/-- `price_storage_contract` from `price_storage_contract.py`.  Returns
`none` exactly when the storage-duration step would crash in Python
(`pd.date_range` applied to the `NaT` min/max of an empty schedule);
otherwise the net contract value. -/
def price_storage_contract (injection_dates withdrawal_dates : List Date)
    (purchase_prices sale_prices : List ℚ)
    (injection_rate withdrawal_rate max_storage storage_cost
     injection_withdrawal_cost transportation_cost : ℚ) : Option ℚ :=
  match minDateOf? injection_dates, maxDateOf? withdrawal_dates with
  | some dmin, some dmax =>
      let all_dates := sortedUniqueDates (injection_dates ++ withdrawal_dates)
      let s := simulate injection_dates withdrawal_dates purchase_prices sale_prices
        injection_rate withdrawal_rate max_storage
        injection_withdrawal_cost transportation_cost all_dates initState
      let storage_duration : ℕ := monthEndCount dmin dmax
      some (s.sales - s.purchase - storage_cost * (storage_duration : ℚ)
            - s.iwCost - s.transCost)
  | _, _ => none

/-! ### Helper lemmas for the contract simulation -/

/-- Strict ascending order on dates, by instant. -/
def ordLt (a b : Date) : Prop := toOrdinal a < toOrdinal b

instance : DecidableRel ordLt := fun a b => Nat.decLt (toOrdinal a) (toOrdinal b)

/-- The volume stays within `[0, max_storage]` across the injection
half of an iteration. -/
lemma injStep_volume_bounds (injection_dates : List Date) (purchase_prices : List ℚ)
    (injection_rate max_storage injection_withdrawal_cost transportation_cost : ℚ)
    (d : Date) (s : ContractState) (hir : 0 ≤ injection_rate)
    (h : 0 ≤ s.volume ∧ s.volume ≤ max_storage) :
    0 ≤ (injStep injection_dates purchase_prices injection_rate max_storage
          injection_withdrawal_cost transportation_cost d s).volume ∧
    (injStep injection_dates purchase_prices injection_rate max_storage
          injection_withdrawal_cost transportation_cost d s).volume ≤ max_storage := by
  unfold injStep
  split_ifs with h1 h2
  · refine ⟨?_, ?_⟩ <;> simp <;> linarith [h.1, h.2]
  · simpa using h
  · exact h

/-- The volume stays within `[0, max_storage]` across the withdrawal
half of an iteration. -/
lemma wdrStep_volume_bounds (withdrawal_dates : List Date) (sale_prices : List ℚ)
    (withdrawal_rate injection_withdrawal_cost transportation_cost max_storage : ℚ)
    (d : Date) (s : ContractState) (hwr : 0 ≤ withdrawal_rate)
    (h : 0 ≤ s.volume ∧ s.volume ≤ max_storage) :
    0 ≤ (wdrStep withdrawal_dates sale_prices withdrawal_rate
          injection_withdrawal_cost transportation_cost d s).volume ∧
    (wdrStep withdrawal_dates sale_prices withdrawal_rate
          injection_withdrawal_cost transportation_cost d s).volume ≤ max_storage := by
  unfold wdrStep
  split_ifs with h1 h2
  · refine ⟨?_, ?_⟩ <;> simp <;> linarith [h.1, h.2]
  · simpa using h
  · exact h

/-- The volume invariant is preserved by the whole date loop, whatever
list of dates it runs over. -/
lemma simulate_volume_bounds (injection_dates withdrawal_dates : List Date)
    (purchase_prices sale_prices : List ℚ)
    (injection_rate withdrawal_rate max_storage
     injection_withdrawal_cost transportation_cost : ℚ)
    (hir : 0 ≤ injection_rate) (hwr : 0 ≤ withdrawal_rate) :
    ∀ (all_dates : List Date) (s : ContractState),
      0 ≤ s.volume ∧ s.volume ≤ max_storage →
      0 ≤ (simulate injection_dates withdrawal_dates purchase_prices sale_prices
            injection_rate withdrawal_rate max_storage
            injection_withdrawal_cost transportation_cost all_dates s).volume ∧
      (simulate injection_dates withdrawal_dates purchase_prices sale_prices
            injection_rate withdrawal_rate max_storage
            injection_withdrawal_cost transportation_cost all_dates s).volume ≤
        max_storage := by
  intro all_dates
  induction all_dates with
  | nil => intro s h; exact h
  | cons d rest ih =>
      intro s h
      exact ih _ (wdrStep_volume_bounds _ _ _ _ _ max_storage _ _ hwr
        (injStep_volume_bounds _ _ _ _ _ _ _ _ hir h))

/-- C1: running the contract valuer on the example fixture (injections
2023-05-01..03 at prices [2.0, 2.1, 2.2], withdrawals 2023-11-01..03 at
prices [3.0, 3.1, 3.2], both rates 1,000,000, max storage 3,000,000,
storage cost 100,000, injection/withdrawal cost 10,000, transportation
cost 50,000) returns exactly 2,040,000. -/
theorem C1_example_contract_value :
    price_storage_contract
      [⟨2023, 5, 1⟩, ⟨2023, 5, 2⟩, ⟨2023, 5, 3⟩]
      [⟨2023, 11, 1⟩, ⟨2023, 11, 2⟩, ⟨2023, 11, 3⟩]
      [2, 21 / 10, 11 / 5] [3, 31 / 10, 16 / 5]
      1000000 1000000 3000000 100000 10000 50000 = some 2040000 := by
  norm_num [price_storage_contract, minDateOf?, maxDateOf?, sortedUniqueDates,
    insertDate, simulate, stepDate, injStep, wdrStep, dmem, dIndex, initState,
    monthEndCount, monthIndex, monthEndOfIndex, toOrdinal, daysInMonth,
    daysBeforeMonth, leapBit, leapsUpTo, isLeap, List.range_succ, List.findIdx_cons,
    List.countP_cons, cond_eq_if, beq_iff_eq]

/-- C5: on a visited date that is scheduled in both lists, the injection
half succeeds — adding `injection_rate` to the volume and accruing
purchase cost `injection_rate × price-of-first-matching-event` plus one
`injection_withdrawal_cost` and one `transportation_cost` — exactly when
`volume ≤ max_storage − injection_rate`, and the withdrawal half
succeeds exactly when `volume ≥ withdrawal_rate`; on a failed guard the
state is unchanged except that a diagnostic naming the date is emitted,
and the loop goes on to the later dates. -/
theorem C5_guard_iff_success (injection_dates withdrawal_dates : List Date)
    (purchase_prices sale_prices : List ℚ)
    (injection_rate withdrawal_rate max_storage
     injection_withdrawal_cost transportation_cost : ℚ)
    (d : Date) (s : ContractState)
    (hi : dmem d injection_dates = true) (hw : dmem d withdrawal_dates = true) :
    (injStep injection_dates purchase_prices injection_rate max_storage
        injection_withdrawal_cost transportation_cost d s =
      if s.volume ≤ max_storage - injection_rate then
        ⟨s.volume + injection_rate,
         s.purchase + injection_rate * purchase_prices.getD (dIndex d injection_dates) 0,
         s.sales, s.iwCost + injection_withdrawal_cost,
         s.transCost + transportation_cost, s.diags⟩
      else
        ⟨s.volume, s.purchase, s.sales, s.iwCost, s.transCost,
         s.diags ++ [(true, d)]⟩) ∧
    ((injStep injection_dates purchase_prices injection_rate max_storage
        injection_withdrawal_cost transportation_cost d s).diags = s.diags ↔
      s.volume ≤ max_storage - injection_rate) ∧
    (wdrStep withdrawal_dates sale_prices withdrawal_rate
        injection_withdrawal_cost transportation_cost d s =
      if s.volume ≥ withdrawal_rate then
        ⟨s.volume - withdrawal_rate, s.purchase,
         s.sales + withdrawal_rate * sale_prices.getD (dIndex d withdrawal_dates) 0,
         s.iwCost + injection_withdrawal_cost,
         s.transCost + transportation_cost, s.diags⟩
      else
        ⟨s.volume, s.purchase, s.sales, s.iwCost, s.transCost,
         s.diags ++ [(false, d)]⟩) ∧
    ((wdrStep withdrawal_dates sale_prices withdrawal_rate
        injection_withdrawal_cost transportation_cost d s).diags = s.diags ↔
      s.volume ≥ withdrawal_rate) ∧
    (∀ (rest : List Date) (s₀ : ContractState),
      simulate injection_dates withdrawal_dates purchase_prices sale_prices
        injection_rate withdrawal_rate max_storage
        injection_withdrawal_cost transportation_cost (d :: rest) s₀ =
      simulate injection_dates withdrawal_dates purchase_prices sale_prices
        injection_rate withdrawal_rate max_storage
        injection_withdrawal_cost transportation_cost rest
        (stepDate injection_dates withdrawal_dates purchase_prices sale_prices
          injection_rate withdrawal_rate max_storage
          injection_withdrawal_cost transportation_cost d s₀)) := by
  refine ⟨?_, ?_, ?_, ?_, fun rest s₀ => rfl⟩
  · unfold injStep
    rw [if_pos hi]
  · unfold injStep
    rw [if_pos hi]
    split_ifs with h1
    · simpa using h1
    · simp only [ContractState.mk.injEq]
      constructor
      · intro hcontr
        have := congrArg List.length hcontr
        simp at this
      · intro hcontr; exact absurd hcontr h1
  · unfold wdrStep
    rw [if_pos hw]
  · unfold wdrStep
    rw [if_pos hw]
    split_ifs with h1
    · simpa using h1
    · simp only [ContractState.mk.injEq]
      constructor
      · intro hcontr
        have := congrArg List.length hcontr
        simp at this
      · intro hcontr; exact absurd hcontr h1

/-- Witness for C5 at a concrete input: the date 2023-05-01 scheduled in
both lists, starting from the all-zero state. -/
theorem C5_guard_iff_success_witness :
    dmem ⟨2023, 5, 1⟩ [⟨2023, 5, 1⟩] = true ∧
    ((injStep [⟨2023, 5, 1⟩] [2] 1000000 3000000 10000 50000 ⟨2023, 5, 1⟩
        initState).diags = initState.diags ↔
      initState.volume ≤ 3000000 - 1000000) :=
  ⟨by decide,
   (C5_guard_iff_success [⟨2023, 5, 1⟩] [⟨2023, 5, 1⟩] [2] [3]
      1000000 1000000 3000000 10000 50000 ⟨2023, 5, 1⟩ initState
      (by decide) (by decide)).2.1⟩

/-- C6: with positive rates and capacity, the running volume satisfies
`0 ≤ volume ≤ max_storage` at every point of the date loop: after any
prefix of the visited date list (including the empty prefix, i.e. at
initialization, and the full list, i.e. at the end of the loop). -/
theorem C6_volume_invariant (injection_dates withdrawal_dates : List Date)
    (purchase_prices sale_prices : List ℚ)
    (injection_rate withdrawal_rate max_storage
     injection_withdrawal_cost transportation_cost : ℚ)
    (hir : 0 < injection_rate) (hwr : 0 < withdrawal_rate)
    (hms : 0 < max_storage) (l₁ l₂ : List Date)
    (_hsplit : sortedUniqueDates (injection_dates ++ withdrawal_dates) = l₁ ++ l₂) :
    0 ≤ (simulate injection_dates withdrawal_dates purchase_prices sale_prices
          injection_rate withdrawal_rate max_storage
          injection_withdrawal_cost transportation_cost l₁ initState).volume ∧
    (simulate injection_dates withdrawal_dates purchase_prices sale_prices
          injection_rate withdrawal_rate max_storage
          injection_withdrawal_cost transportation_cost l₁ initState).volume ≤
      max_storage :=
  simulate_volume_bounds injection_dates withdrawal_dates purchase_prices
    sale_prices injection_rate withdrawal_rate max_storage
    injection_withdrawal_cost transportation_cost hir.le hwr.le l₁ initState
    ⟨le_refl 0, hms.le⟩

/-- Witness for C6 on the example schedules, split after the first
visited date. -/
theorem C6_volume_invariant_witness :
    ((0 : ℚ) < 1000000 ∧
     sortedUniqueDates ([⟨2023, 5, 1⟩] ++ [⟨2023, 11, 1⟩]) =
       [⟨2023, 5, 1⟩] ++ [⟨2023, 11, 1⟩]) ∧
    (0 ≤ (simulate [⟨2023, 5, 1⟩] [⟨2023, 11, 1⟩] [2] [3]
          1000000 1000000 3000000 10000 50000 [⟨2023, 5, 1⟩] initState).volume ∧
     (simulate [⟨2023, 5, 1⟩] [⟨2023, 11, 1⟩] [2] [3]
          1000000 1000000 3000000 10000 50000 [⟨2023, 5, 1⟩] initState).volume ≤
       3000000) :=
  ⟨⟨by norm_num, by decide⟩,
   C6_volume_invariant [⟨2023, 5, 1⟩] [⟨2023, 11, 1⟩] [2] [3]
     1000000 1000000 3000000 10000 50000 (by norm_num) (by norm_num)
     (by norm_num) [⟨2023, 5, 1⟩] [⟨2023, 11, 1⟩] (by decide)⟩

/-- C7: for non-empty schedules, the contract value equals the value
computed with zero storage cost minus
`storage_cost × (number of month-end boundaries in the closed interval
from the earliest injection date to the latest withdrawal date)` — a
flat amount applied once after the event loop, independent of the
prices, rates and capacity that determine which events succeed and how
the volume varies. -/
theorem C7_flat_storage_cost (injection_dates withdrawal_dates : List Date)
    (purchase_prices sale_prices : List ℚ)
    (injection_rate withdrawal_rate max_storage storage_cost
     injection_withdrawal_cost transportation_cost : ℚ)
    (dmin dmax : Date)
    (hmin : minDateOf? injection_dates = some dmin)
    (hmax : maxDateOf? withdrawal_dates = some dmax) :
    price_storage_contract injection_dates withdrawal_dates
      purchase_prices sale_prices injection_rate withdrawal_rate max_storage
      storage_cost injection_withdrawal_cost transportation_cost =
    (price_storage_contract injection_dates withdrawal_dates
      purchase_prices sale_prices injection_rate withdrawal_rate max_storage
      0 injection_withdrawal_cost transportation_cost).map
      (fun v => v - storage_cost * (monthEndCount dmin dmax : ℚ)) := by
  unfold price_storage_contract
  rw [hmin, hmax]
  simp only [Option.map_some']
  congr 1
  ring

/-- Witness for C7 on the example single-event schedules. -/
theorem C7_flat_storage_cost_witness :
    (minDateOf? [⟨2023, 5, 1⟩] = some ⟨2023, 5, 1⟩ ∧
     maxDateOf? [⟨2023, 11, 1⟩] = some ⟨2023, 11, 1⟩) ∧
    price_storage_contract [⟨2023, 5, 1⟩] [⟨2023, 11, 1⟩] [2] [3]
      1000000 1000000 3000000 100000 10000 50000 =
    (price_storage_contract [⟨2023, 5, 1⟩] [⟨2023, 11, 1⟩] [2] [3]
      1000000 1000000 3000000 0 10000 50000).map
      (fun v => v - 100000 * (monthEndCount ⟨2023, 5, 1⟩ ⟨2023, 11, 1⟩ : ℚ)) :=
  ⟨⟨by decide, by decide⟩,
   C7_flat_storage_cost [⟨2023, 5, 1⟩] [⟨2023, 11, 1⟩] [2] [3]
     1000000 1000000 3000000 100000 10000 50000 ⟨2023, 5, 1⟩ ⟨2023, 11, 1⟩
     (by decide) (by decide)⟩

/-- C8 (divergence witness): with an empty withdrawal schedule the
month-count step has no defined result — `withdrawal_dates.max()` is
`NaT` and `pd.date_range` raises — so the valuer crashes instead of
handling the case explicitly; in the embedding the function yields
`none` for every such input. -/
theorem C8_empty_withdrawals_crash (injection_dates : List Date)
    (purchase_prices sale_prices : List ℚ)
    (injection_rate withdrawal_rate max_storage storage_cost
     injection_withdrawal_cost transportation_cost : ℚ) :
    price_storage_contract injection_dates [] purchase_prices sale_prices
      injection_rate withdrawal_rate max_storage storage_cost
      injection_withdrawal_cost transportation_cost = none := by
  cases h : minDateOf? injection_dates <;>
    simp [price_storage_contract, maxDateOf?, h]

/-! ### Helper lemmas for the merged, deduplicated date list -/

/-- Every member of `insertDate d l` is `d` or a member of `l`. -/
lemma mem_insertDate {x d : Date} : ∀ {l : List Date},
    x ∈ insertDate d l → x = d ∨ x ∈ l := by
  intro l
  induction l with
  | nil => intro h; simpa [insertDate] using h
  | cons e es ih =>
      unfold insertDate
      split_ifs with h1 h2
      · intro h
        rcases List.mem_cons.1 h with h | h
        · exact Or.inl h
        · exact Or.inr h
      · intro h
        exact Or.inr h
      · intro h
        rcases List.mem_cons.1 h with h | h
        · exact Or.inr (h ▸ List.mem_cons_self e es)
        · rcases ih h with h' | h'
          · exact Or.inl h'
          · exact Or.inr (List.mem_cons_of_mem e h')

/-- `insertDate` preserves strict sortedness by instant. -/
lemma insertDate_pairwise {d : Date} : ∀ {l : List Date},
    l.Pairwise ordLt → (insertDate d l).Pairwise ordLt := by
  intro l
  induction l with
  | nil => intro _; simp [insertDate, List.pairwise_singleton]
  | cons e es ih =>
      intro h
      rw [List.pairwise_cons] at h
      unfold insertDate
      split_ifs with h1 h2
      · rw [List.pairwise_cons]
        refine ⟨?_, List.pairwise_cons.2 h⟩
        intro x hx
        rcases List.mem_cons.1 hx with hx | hx
        · subst hx; exact h1
        · exact lt_trans h1 (h.1 x hx)
      · exact List.pairwise_cons.2 h
      · rw [List.pairwise_cons]
        refine ⟨?_, ih h.2⟩
        intro x hx
        rcases mem_insertDate hx with hx' | hx'
        · subst hx'
          unfold ordLt
          omega
        · exact h.1 x hx'

/-- The instants present in `insertDate d l` are those of `d :: l`. -/
lemma ordmem_insertDate {d : Date} {x : ℕ} : ∀ {l : List Date},
    ((insertDate d l).any (fun e => toOrdinal e == x)) = true ↔
      toOrdinal d = x ∨ (l.any (fun e => toOrdinal e == x)) = true := by
  intro l
  induction l with
  | nil => simp [insertDate]
  | cons e es ih =>
      unfold insertDate
      split_ifs with h1 h2
      · simp [List.any_cons]
      · simp only [List.any_cons, Bool.or_eq_true, beq_iff_eq]
        constructor
        · intro h; exact Or.inr h
        · rintro (h | h)
          · exact Or.inl (by rw [← h2]; exact h)
          · exact h
      · simp only [List.any_cons, Bool.or_eq_true, beq_iff_eq] at ih ⊢
        rw [ih]
        tauto

/-- The merged list is strictly sorted by instant. -/
lemma sortedUniqueDates_pairwise : ∀ (l : List Date),
    (sortedUniqueDates l).Pairwise ordLt := by
  intro l
  induction l with
  | nil => simp [sortedUniqueDates]
  | cons d ds ih => exact insertDate_pairwise ih

/-- The merged list carries exactly the instants of the input list. -/
lemma sortedUniqueDates_ordmem (x : ℕ) : ∀ (l : List Date),
    ((sortedUniqueDates l).any (fun e => toOrdinal e == x)) = true ↔
      (l.any (fun e => toOrdinal e == x)) = true := by
  intro l
  induction l with
  | nil => simp [sortedUniqueDates]
  | cons d ds ih =>
      show ((insertDate d (sortedUniqueDates ds)).any _) = true ↔ _
      rw [ordmem_insertDate, ih]
      simp [List.any_cons]

/-- In a strictly sorted date list, at most one entry denotes any given
instant. -/
lemma countP_le_one_of_pairwise (x : ℕ) : ∀ (l : List Date),
    l.Pairwise ordLt → l.countP (fun e => toOrdinal e == x) ≤ 1 := by
  intro l
  induction l with
  | nil => intro _; simp
  | cons e es ih =>
      intro h
      rw [List.pairwise_cons] at h
      rw [List.countP_cons]
      by_cases he : toOrdinal e = x
      · have : es.countP (fun e => toOrdinal e == x) = 0 := by
          rw [List.countP_eq_zero]
          intro a ha
          have := h.1 a ha
          simp only [beq_iff_eq]
          unfold ordLt at this
          omega
        simp [this, he]
      · simpa [he] using ih h.2

/-- C10: the valuer visits each distinct calendar instant exactly once,
in strictly ascending order (the merged list is strictly sorted and
carries an instant exactly once iff it occurs in either schedule); on a
shared date the iteration runs the injection check first and feeds its
result to the withdrawal check; and the event used for a date is the
first occurrence of that instant in its schedule list — the scan index
is in range, points at an entry with the queried instant, and every
earlier entry has a different instant. -/
theorem C10_date_loop_structure (injection_dates withdrawal_dates : List Date) :
    List.Chain' ordLt (sortedUniqueDates (injection_dates ++ withdrawal_dates)) ∧
    (∀ d : Date,
      (sortedUniqueDates (injection_dates ++ withdrawal_dates)).countP
        (fun e => toOrdinal e == toOrdinal d) =
      if dmem d injection_dates = true ∨ dmem d withdrawal_dates = true
      then 1 else 0) ∧
    (∀ (purchase_prices sale_prices : List ℚ)
       (injection_rate withdrawal_rate max_storage
        injection_withdrawal_cost transportation_cost : ℚ)
       (d : Date) (s : ContractState),
      stepDate injection_dates withdrawal_dates purchase_prices sale_prices
        injection_rate withdrawal_rate max_storage
        injection_withdrawal_cost transportation_cost d s =
      wdrStep withdrawal_dates sale_prices withdrawal_rate
        injection_withdrawal_cost transportation_cost d
        (injStep injection_dates purchase_prices injection_rate max_storage
          injection_withdrawal_cost transportation_cost d s)) ∧
    (∀ d : Date, dmem d injection_dates = true →
      dIndex d injection_dates < injection_dates.length ∧
      toOrdinal (injection_dates.getD (dIndex d injection_dates) ⟨1, 1, 1⟩) =
        toOrdinal d ∧
      ∀ j, j < dIndex d injection_dates →
        toOrdinal (injection_dates.getD j ⟨1, 1, 1⟩) ≠ toOrdinal d) ∧
    (∀ d : Date, dmem d withdrawal_dates = true →
      dIndex d withdrawal_dates < withdrawal_dates.length ∧
      toOrdinal (withdrawal_dates.getD (dIndex d withdrawal_dates) ⟨1, 1, 1⟩) =
        toOrdinal d ∧
      ∀ j, j < dIndex d withdrawal_dates →
        toOrdinal (withdrawal_dates.getD j ⟨1, 1, 1⟩) ≠ toOrdinal d) := by
  have firstMatch : ∀ (l : List Date) (d : Date), dmem d l = true →
      dIndex d l < l.length ∧
      toOrdinal (l.getD (dIndex d l) ⟨1, 1, 1⟩) = toOrdinal d ∧
      ∀ j, j < dIndex d l → toOrdinal (l.getD j ⟨1, 1, 1⟩) ≠ toOrdinal d := by
    intro l d hm
    have hex : ∃ x ∈ l, (toOrdinal x == toOrdinal d) = true :=
      List.any_eq_true.1 hm
    have hlt : dIndex d l < l.length := List.findIdx_lt_length_of_exists hex
    refine ⟨hlt, ?_, ?_⟩
    · rw [List.getD_eq_getElem l _ hlt]
      exact beq_iff_eq.1 (List.findIdx_getElem (w := hlt))
    · intro j hj
      have hjl : j < l.length := lt_trans hj hlt
      rw [List.getD_eq_getElem l _ hjl]
      have := List.not_of_lt_findIdx hj
      simpa using this
  refine ⟨(sortedUniqueDates_pairwise _).chain', ?_,
    fun _ _ _ _ _ _ _ _ _ => rfl,
    firstMatch injection_dates, firstMatch withdrawal_dates⟩
  intro d
  split_ifs with hmem
  · have hany : ((injection_dates ++ withdrawal_dates).any
        (fun e => toOrdinal e == toOrdinal d)) = true := by
      rw [List.any_append, Bool.or_eq_true]
      exact hmem
    have hmerged := (sortedUniqueDates_ordmem (toOrdinal d)
      (injection_dates ++ withdrawal_dates)).2 hany
    have hpos : 0 < (sortedUniqueDates (injection_dates ++ withdrawal_dates)).countP
        (fun e => toOrdinal e == toOrdinal d) :=
      List.countP_pos_iff.2 (List.any_eq_true.1 hmerged)
    have hle := countP_le_one_of_pairwise (toOrdinal d) _
      (sortedUniqueDates_pairwise (injection_dates ++ withdrawal_dates))
    omega
  · rw [List.countP_eq_zero]
    intro a ha hpa
    have hmerged : ((sortedUniqueDates (injection_dates ++ withdrawal_dates)).any
        (fun e => toOrdinal e == toOrdinal d)) = true :=
      List.any_eq_true.2 ⟨a, ha, hpa⟩
    have hany := (sortedUniqueDates_ordmem (toOrdinal d)
      (injection_dates ++ withdrawal_dates)).1 hmerged
    rw [List.any_append, Bool.or_eq_true] at hany
    exact hmem hany

/-- Witness for C10: a schedule whose queried instant occurs twice, at
positions 1 and 2; the scan resolves to position 1. -/
theorem C10_date_loop_structure_witness :
    dmem ⟨2023, 5, 1⟩ [⟨2023, 5, 2⟩, ⟨2023, 5, 1⟩, ⟨2023, 5, 1⟩] = true ∧
    dIndex ⟨2023, 5, 1⟩ [⟨2023, 5, 2⟩, ⟨2023, 5, 1⟩, ⟨2023, 5, 1⟩] <
      ([⟨2023, 5, 2⟩, ⟨2023, 5, 1⟩, ⟨2023, 5, 1⟩] : List Date).length ∧
    toOrdinal (([⟨2023, 5, 2⟩, ⟨2023, 5, 1⟩, ⟨2023, 5, 1⟩] : List Date).getD
      (dIndex ⟨2023, 5, 1⟩ [⟨2023, 5, 2⟩, ⟨2023, 5, 1⟩, ⟨2023, 5, 1⟩]) ⟨1, 1, 1⟩) =
      toOrdinal ⟨2023, 5, 1⟩ :=
  ⟨by decide,
   ((C10_date_loop_structure [⟨2023, 5, 2⟩, ⟨2023, 5, 1⟩, ⟨2023, 5, 1⟩]
      [⟨2023, 11, 1⟩]).2.2.2.1 ⟨2023, 5, 1⟩ (by decide)).1,
   ((C10_date_loop_structure [⟨2023, 5, 2⟩, ⟨2023, 5, 1⟩, ⟨2023, 5, 1⟩]
      [⟨2023, 11, 1⟩]).2.2.2.1 ⟨2023, 5, 1⟩ (by decide)).2.1⟩

/-- C9: `estimate_price` and `extrapolate_future_prices` have no effect
beyond the computation: the `Dates` and `Prices` contents of the frame
are unchanged by the call (only scratch columns are added), and the
result is a function of the `(dates, prices)` contents and the explicit
arguments alone. -/
theorem C9_no_side_effects (df : GasDataFrame) (input_date : Date) (months : ℕ) :
    (estimate_price_df df input_date).1.dates = df.dates ∧
    (estimate_price_df df input_date).1.prices = df.prices ∧
    (estimate_price_df df input_date).2 =
      estimate_price df.dates df.prices input_date ∧
    (extrapolate_future_prices_df df months).1.dates = df.dates ∧
    (extrapolate_future_prices_df df months).1.prices = df.prices ∧
    (extrapolate_future_prices_df df months).2 =
      extrapolate_future_prices df.dates df.prices months :=
  ⟨rfl, rfl, rfl, rfl, rfl, rfl⟩

/-! ### Least-squares algebra -/

/-- Sum of residuals of the line `y = a + b·x` over a point list. -/
def residSum (l : List (ℚ × ℚ)) (a b : ℚ) : ℚ :=
  (l.map (fun p => p.2 - (a + b * p.1))).sum

/-- Sum of abscissa-weighted residuals of the line `y = a + b·x`. -/
def xResidSum (l : List (ℚ × ℚ)) (a b : ℚ) : ℚ :=
  (l.map (fun p => p.1 * (p.2 - (a + b * p.1)))).sum

/-- Sum of squared errors of the line `y = a + b·x`. -/
def SSE (l : List (ℚ × ℚ)) (a b : ℚ) : ℚ :=
  (l.map (fun p => (p.2 - (a + b * p.1)) ^ 2)).sum

lemma Sx_cons (p : ℚ × ℚ) (t : List (ℚ × ℚ)) : Sx (p :: t) = p.1 + Sx t := by
  simp [Sx]

lemma Sy_cons (p : ℚ × ℚ) (t : List (ℚ × ℚ)) : Sy (p :: t) = p.2 + Sy t := by
  simp [Sy]

lemma Sxx_cons (p : ℚ × ℚ) (t : List (ℚ × ℚ)) :
    Sxx (p :: t) = p.1 * p.1 + Sxx t := by
  simp [Sxx]

lemma Sxy_cons (p : ℚ × ℚ) (t : List (ℚ × ℚ)) :
    Sxy (p :: t) = p.1 * p.2 + Sxy t := by
  simp [Sxy]

lemma residSum_eq (a b : ℚ) : ∀ l : List (ℚ × ℚ),
    residSum l a b = Sy l - ((l.length : ℚ) * a + b * Sx l) := by
  intro l
  induction l with
  | nil => simp [residSum, Sy, Sx]
  | cons p t ih =>
      simp only [residSum, List.map_cons, List.sum_cons] at ih ⊢
      rw [ih, Sy_cons, Sx_cons, List.length_cons]
      push_cast
      ring

lemma xResidSum_eq (a b : ℚ) : ∀ l : List (ℚ × ℚ),
    xResidSum l a b = Sxy l - (a * Sx l + b * Sxx l) := by
  intro l
  induction l with
  | nil => simp [xResidSum, Sxy, Sx, Sxx]
  | cons p t ih =>
      simp only [xResidSum, List.map_cons, List.sum_cons] at ih ⊢
      rw [ih, Sxy_cons, Sx_cons, Sxx_cons]
      ring

lemma SSE_decomp (a b a' b' : ℚ) : ∀ l : List (ℚ × ℚ),
    SSE l a' b' = SSE l a b + 2 * (a - a') * residSum l a b +
      2 * (b - b') * xResidSum l a b +
      (l.map (fun p => ((a - a') + (b - b') * p.1) ^ 2)).sum := by
  intro l
  induction l with
  | nil => simp [SSE, residSum, xResidSum]
  | cons p t ih =>
      simp only [SSE, residSum, xResidSum, List.map_cons, List.sum_cons] at ih ⊢
      rw [ih]
      ring

lemma sum_sq_nonneg (f : ℚ × ℚ → ℚ) : ∀ l : List (ℚ × ℚ),
    0 ≤ (l.map (fun p => (f p) ^ 2)).sum := by
  intro l
  induction l with
  | nil => simp
  | cons p t ih =>
      simp only [List.map_cons, List.sum_cons]
      have := sq_nonneg (f p)
      linarith

lemma shift_sq_sum (a : ℚ) : ∀ t : List (ℚ × ℚ),
    (t.map (fun p => (a - p.1) ^ 2)).sum =
      (t.length : ℚ) * a ^ 2 - 2 * a * Sx t + Sxx t := by
  intro t
  induction t with
  | nil => simp [Sx, Sxx]
  | cons p t ih =>
      simp only [List.map_cons, List.sum_cons]
      rw [ih, Sx_cons, Sxx_cons, List.length_cons]
      push_cast
      ring

lemma olsDen_cons (p : ℚ × ℚ) (t : List (ℚ × ℚ)) :
    olsDen (p :: t) = (t.map (fun q => (p.1 - q.1) ^ 2)).sum + olsDen t := by
  unfold olsDen
  rw [shift_sq_sum, Sx_cons, Sxx_cons, List.length_cons]
  push_cast
  ring

lemma olsDen_nonneg : ∀ l : List (ℚ × ℚ), 0 ≤ olsDen l := by
  intro l
  induction l with
  | nil => simp [olsDen, Sx, Sxx]
  | cons p t ih =>
      rw [olsDen_cons]
      have := sum_sq_nonneg (fun q => p.1 - q.1) t
      linarith

/-- Two points with distinct abscissas make the least-squares
denominator strictly positive. -/
lemma olsDen_pos : ∀ l : List (ℚ × ℚ),
    l.Pairwise (fun p q => p.1 < q.1) → 2 ≤ l.length → 0 < olsDen l := by
  intro l hpw hlen
  match l, hlen with
  | p :: r :: t₂, _ =>
    rw [olsDen_cons]
    rw [List.pairwise_cons] at hpw
    have hlt : p.1 < r.1 := hpw.1 r (List.mem_cons_self r t₂)
    have h1 : 0 < (p.1 - r.1) ^ 2 := by nlinarith
    have h2 := sum_sq_nonneg (fun q => p.1 - q.1) t₂
    have h3 := olsDen_nonneg (r :: t₂)
    simp only [List.map_cons, List.sum_cons]
    linarith

/-- The fitted coefficients satisfy the least-squares normal
equations. -/
lemma ols_normal_eqs (l : List (ℚ × ℚ)) (hden : olsDen l ≠ 0)
    (hn : (l.length : ℚ) ≠ 0) :
    residSum l (olsIntercept l) (olsSlope l) = 0 ∧
    xResidSum l (olsIntercept l) (olsSlope l) = 0 := by
  have hslope : olsSlope l * olsDen l =
      (l.length : ℚ) * Sxy l - Sx l * Sy l := by
    unfold olsSlope
    field_simp
  constructor
  · rw [residSum_eq]
    unfold olsIntercept
    field_simp
  · rw [xResidSum_eq]
    unfold olsIntercept
    unfold olsDen at hden hslope
    field_simp
    nlinarith [hslope]

/-- The fitted line minimises the sum of squared errors over all lines:
the defining property of ordinary least squares. -/
lemma ols_argmin (l : List (ℚ × ℚ)) (hden : olsDen l ≠ 0)
    (hn : (l.length : ℚ) ≠ 0) (a b : ℚ) :
    SSE l (olsIntercept l) (olsSlope l) ≤ SSE l a b := by
  have h := SSE_decomp (olsIntercept l) (olsSlope l) a b l
  rw [(ols_normal_eqs l hden hn).1, (ols_normal_eqs l hden hn).2] at h
  have hsq := sum_sq_nonneg
    (fun p => (olsIntercept l - a) + (olsSlope l - b) * p.1) l
  linarith

/-! ### Range-check and point-list lemmas -/

lemma foldl_min_le_acc : ∀ (ds : List Date) (acc : ℕ),
    ds.foldl (fun a e => min a (toOrdinal e)) acc ≤ acc := by
  intro ds
  induction ds with
  | nil => intro acc; exact le_refl acc
  | cons d t ih =>
      intro acc
      calc t.foldl (fun a e => min a (toOrdinal e)) (min acc (toOrdinal d)) ≤
            min acc (toOrdinal d) := ih _
        _ ≤ acc := min_le_left _ _

lemma foldl_min_le_mem : ∀ (ds : List Date) (acc : ℕ) (e : Date), e ∈ ds →
    ds.foldl (fun a e => min a (toOrdinal e)) acc ≤ toOrdinal e := by
  intro ds
  induction ds with
  | nil => intro _ e he; exact absurd he (List.not_mem_nil e)
  | cons d t ih =>
      intro acc e he
      rcases List.mem_cons.1 he with he | he
      · subst he
        calc t.foldl (fun a x => min a (toOrdinal x)) (min acc (toOrdinal e)) ≤
              min acc (toOrdinal e) := foldl_min_le_acc t _
          _ ≤ toOrdinal e := min_le_right _ _
      · exact ih _ e he

/-- `data['Dates'].min()` is a lower bound of every entry. -/
lemma ordsMin_le {dates : List Date} {e : Date} (he : e ∈ dates) :
    ordsMin dates ≤ toOrdinal e := by
  match dates, he with
  | d :: ds, he =>
    show ds.foldl (fun a x => min a (toOrdinal x)) (toOrdinal d) ≤ _
    rcases List.mem_cons.1 he with he | he
    · subst he; exact foldl_min_le_acc ds _
    · exact foldl_min_le_mem ds _ e he

lemma acc_le_foldl_max : ∀ (ds : List Date) (acc : ℕ),
    acc ≤ ds.foldl (fun a e => max a (toOrdinal e)) acc := by
  intro ds
  induction ds with
  | nil => intro acc; exact le_refl acc
  | cons d t ih =>
      intro acc
      calc acc ≤ max acc (toOrdinal d) := le_max_left _ _
        _ ≤ t.foldl (fun a e => max a (toOrdinal e)) (max acc (toOrdinal d)) := ih _

lemma mem_le_foldl_max : ∀ (ds : List Date) (acc : ℕ) (e : Date), e ∈ ds →
    toOrdinal e ≤ ds.foldl (fun a e => max a (toOrdinal e)) acc := by
  intro ds
  induction ds with
  | nil => intro _ e he; exact absurd he (List.not_mem_nil e)
  | cons d t ih =>
      intro acc e he
      rcases List.mem_cons.1 he with he | he
      · subst he
        calc toOrdinal e ≤ max acc (toOrdinal e) := le_max_right _ _
          _ ≤ t.foldl (fun a x => max a (toOrdinal x)) (max acc (toOrdinal e)) :=
            acc_le_foldl_max t _
      · exact ih _ e he

/-- `data['Dates'].max()` is an upper bound of every entry. -/
lemma le_ordsMax {dates : List Date} {e : Date} (he : e ∈ dates) :
    toOrdinal e ≤ ordsMax dates := by
  match dates, he with
  | d :: ds, he =>
    show _ ≤ ds.foldl (fun a x => max a (toOrdinal x)) (toOrdinal d)
    rcases List.mem_cons.1 he with he | he
    · subst he; exact acc_le_foldl_max ds _
    · exact mem_le_foldl_max ds _ e he

instance : IsTrans Date ordLt :=
  ⟨fun _ _ _ h1 h2 => Nat.lt_trans h1 h2⟩

/-- Length of the zipped ordinal/price point list. -/
lemma ordPoints_length {dates : List Date} {prices : List ℚ}
    (hlen : prices.length = dates.length) :
    (ordPoints dates prices).length = dates.length := by
  simp [ordPoints, hlen]

/-- Entries of the zipped ordinal/price point list. -/
lemma ordPoints_getD {dates : List Date} {prices : List ℚ}
    (hlen : prices.length = dates.length) {i : ℕ} (hi : i < dates.length) :
    (ordPoints dates prices).getD i (0, 0) =
      ((toOrdinal (dates.getD i ⟨1, 1, 1⟩) : ℚ), prices.getD i 0) := by
  have hzl : i < (ordPoints dates prices).length := by
    rw [ordPoints_length hlen]; exact hi
  have hd : i < (dates.map (fun d => ((toOrdinal d : ℚ)))).length := by
    simpa using hi
  have hp : i < prices.length := by rw [hlen]; exact hi
  rw [List.getD_eq_getElem _ _ hzl]
  rw [List.getD_eq_getElem _ _ hi, List.getD_eq_getElem _ _ hp]
  unfold ordPoints
  rw [List.getElem_zip]
  simp

/-- The point list inherits strict sortedness of abscissas from the
dates. -/
lemma ordPoints_pairwise {dates : List Date} {prices : List ℚ}
    (hlen : prices.length = dates.length)
    (hsort : dates.Pairwise ordLt) :
    (ordPoints dates prices).Pairwise (fun p q => p.1 < q.1) := by
  have hmap : (dates.map (fun d => ((toOrdinal d : ℚ)))).Pairwise (· < ·) := by
    rw [List.pairwise_map]
    exact hsort.imp (fun h => by exact_mod_cast h)
  have hfst : ((ordPoints dates prices).map Prod.fst).Pairwise (· < ·) := by
    rw [ordPoints, List.map_fst_zip]
    · exact hmap
    · simp [hlen]
  rw [List.pairwise_map] at hfst
  exact hfst

/-- In a list with strictly increasing abscissas, the head's abscissa
bounds every entry's abscissa from below. -/
lemma head_fst_le_getD (q : ℚ × ℚ) (t : List (ℚ × ℚ)) (j : ℕ)
    (hpw : (q :: t).Pairwise (fun p r => p.1 < r.1)) (hj : j < (q :: t).length) :
    q.1 ≤ ((q :: t).getD j (0, 0)).1 := by
  cases j with
  | zero => exact le_refl q.1
  | succ j' =>
      rw [List.getD_cons_succ]
      have hj' : j' < t.length := by simpa using hj
      rw [List.getD_eq_getElem _ _ hj']
      exact le_of_lt ((List.pairwise_cons.1 hpw).1 _ (List.getElem_mem hj'))

/-- `np.interp` on a strictly sorted node list returns, at any point
lying between nodes `i` and `i+1`, the linear interpolation between
those two nodes. -/
lemma npInterp_bracket (x : ℚ) : ∀ (pts : List (ℚ × ℚ)) (i : ℕ),
    pts.Pairwise (fun p q => p.1 < q.1) →
    i + 1 < pts.length →
    (pts.getD i (0, 0)).1 ≤ x → x ≤ (pts.getD (i + 1) (0, 0)).1 →
    npInterp x pts = (pts.getD i (0, 0)).2 +
      ((pts.getD (i + 1) (0, 0)).2 - (pts.getD i (0, 0)).2) *
        (x - (pts.getD i (0, 0)).1) /
        ((pts.getD (i + 1) (0, 0)).1 - (pts.getD i (0, 0)).1) := by
  intro pts
  induction pts with
  | nil => intro i _ hlen _ _; simp at hlen
  | cons p t ih =>
      cases t with
      | nil =>
          intro i _ hlen _ _
          simp at hlen
      | cons q rest =>
          intro i hpw hlen hlo hhi
          have hpq : p.1 < q.1 :=
            (List.pairwise_cons.1 hpw).1 q (List.mem_cons_self q rest)
          have hpw' : (q :: rest).Pairwise (fun p r => p.1 < r.1) :=
            (List.pairwise_cons.1 hpw).2
          cases i with
          | zero =>
              simp only [List.getD_cons_zero, List.getD_cons_succ] at hlo hhi ⊢
              simp only [npInterp]
              by_cases hx : x ≤ p.1
              · have hxe : x = p.1 := le_antisymm hx hlo
                rw [if_pos hx, hxe]
                simp
              · rw [if_neg hx, if_pos hhi]
          | succ j =>
              simp only [List.getD_cons_succ] at hlo hhi ⊢
              have hlen' : j + 1 < (q :: rest).length := by simpa using hlen
              have hqx : q.1 ≤ x :=
                le_trans (head_fst_le_getD q rest j hpw' (by omega)) hlo
              have hnx : ¬x ≤ p.1 := not_le.2 (lt_of_lt_of_le hpq hqx)
              simp only [npInterp]
              rw [if_neg hnx]
              by_cases hxq : x ≤ q.1
              · have hxe : x = q.1 := le_antisymm hxq hqx
                cases j with
                | zero =>
                    rw [if_pos hxq]
                    simp only [List.getD_cons_zero, List.getD_cons_succ] at hhi ⊢
                    have hne : q.1 - p.1 ≠ 0 :=
                      sub_ne_zero.2 (ne_of_gt hpq)
                    rw [hxe]
                    rw [mul_div_assoc, div_self hne]
                    simp
                | succ j' =>
                    exfalso
                    have hj2 : j' + 1 < rest.length := by simpa using hlen'
                    have hj' : j' < rest.length := by omega
                    have hql : q.1 < ((q :: rest).getD (j' + 1) (0, 0)).1 := by
                      rw [List.getD_cons_succ, List.getD_eq_getElem _ _ hj']
                      exact (List.pairwise_cons.1 hpw').1 _ (List.getElem_mem hj')
                    have hqx' : q.1 < x := lt_of_lt_of_le hql hlo
                    exact absurd hxq (not_le.2 hqx')
              · rw [if_neg hxq]
                exact ih j hpw' hlen' hlo hhi

/-- C2: on a series of at least two points sorted strictly ascending by
date, a query between the bracketing observations `i` and `i+1` (by
ordinal day count) is answered by the linear interpolation between them,
and a query whose instant equals any observed date's — the endpoints
included — is answered by that observation's price exactly. -/
theorem C2_interpolation_within_range (dates : List Date) (prices : List ℚ)
    (input_date : Date) (h2 : 2 ≤ dates.length)
    (hlen : prices.length = dates.length)
    (hsort : List.Chain' ordLt dates) :
    (∀ i, i + 1 < dates.length →
      toOrdinal (dates.getD i ⟨1, 1, 1⟩) ≤ toOrdinal input_date →
      toOrdinal input_date ≤ toOrdinal (dates.getD (i + 1) ⟨1, 1, 1⟩) →
      estimate_price dates prices input_date =
        prices.getD i 0 + (prices.getD (i + 1) 0 - prices.getD i 0) *
          ((toOrdinal input_date : ℚ) - (toOrdinal (dates.getD i ⟨1, 1, 1⟩) : ℚ)) /
          ((toOrdinal (dates.getD (i + 1) ⟨1, 1, 1⟩) : ℚ) -
            (toOrdinal (dates.getD i ⟨1, 1, 1⟩) : ℚ))) ∧
    (∀ j, j < dates.length →
      toOrdinal input_date = toOrdinal (dates.getD j ⟨1, 1, 1⟩) →
      estimate_price dates prices input_date = prices.getD j 0) := by
  have hpw : dates.Pairwise ordLt := List.chain'_iff_pairwise.1 hsort
  have hmemD : ∀ {k : ℕ}, k < dates.length → dates.getD k ⟨1, 1, 1⟩ ∈ dates := by
    intro k hk
    rw [List.getD_eq_getElem _ _ hk]
    exact List.getElem_mem hk
  have partA : ∀ i, i + 1 < dates.length →
      toOrdinal (dates.getD i ⟨1, 1, 1⟩) ≤ toOrdinal input_date →
      toOrdinal input_date ≤ toOrdinal (dates.getD (i + 1) ⟨1, 1, 1⟩) →
      estimate_price dates prices input_date =
        prices.getD i 0 + (prices.getD (i + 1) 0 - prices.getD i 0) *
          ((toOrdinal input_date : ℚ) - (toOrdinal (dates.getD i ⟨1, 1, 1⟩) : ℚ)) /
          ((toOrdinal (dates.getD (i + 1) ⟨1, 1, 1⟩) : ℚ) -
            (toOrdinal (dates.getD i ⟨1, 1, 1⟩) : ℚ)) := by
    intro i hi hlo hhi
    have hi0 : i < dates.length := by omega
    have hmin : ordsMin dates ≤ toOrdinal input_date :=
      le_trans (ordsMin_le (hmemD hi0)) hlo
    have hmax : toOrdinal input_date ≤ ordsMax dates :=
      le_trans hhi (le_ordsMax (hmemD hi))
    have hkey := npInterp_bracket ((toOrdinal input_date : ℚ))
      (ordPoints dates prices) i (ordPoints_pairwise hlen hpw)
      (by rw [ordPoints_length hlen]; exact hi)
      (by rw [ordPoints_getD hlen hi0]
          show (toOrdinal (dates.getD i ⟨1, 1, 1⟩) : ℚ) ≤ (toOrdinal input_date : ℚ)
          exact_mod_cast hlo)
      (by rw [ordPoints_getD hlen hi]
          show (toOrdinal input_date : ℚ) ≤ (toOrdinal (dates.getD (i + 1) ⟨1, 1, 1⟩) : ℚ)
          exact_mod_cast hhi)
    unfold estimate_price
    rw [if_pos ⟨hmin, hmax⟩, hkey, ordPoints_getD hlen hi0, ordPoints_getD hlen hi]
  refine ⟨partA, ?_⟩
  intro j hj heq
  have hadj : ∀ k, k + 1 < dates.length →
      toOrdinal (dates.getD k ⟨1, 1, 1⟩) <
        toOrdinal (dates.getD (k + 1) ⟨1, 1, 1⟩) := by
    intro k hk
    have hk0 : k < dates.length := by omega
    rw [List.getD_eq_getElem _ _ hk0, List.getD_eq_getElem _ _ hk]
    exact List.pairwise_iff_getElem.1 hpw k (k + 1) hk0 hk (by omega)
  by_cases hj1 : j + 1 < dates.length
  · have h := partA j hj1 (le_of_eq heq.symm)
      (le_of_lt (heq ▸ hadj j hj1))
    rw [h, heq]
    simp
  · have hj0 : 1 ≤ j := by omega
    have hii : j - 1 + 1 = j := by omega
    have hi1 : j - 1 + 1 < dates.length := by omega
    have hlt := hadj (j - 1) hi1
    rw [hii] at hlt hi1
    have h := partA (j - 1) (by omega)
      (by rw [heq]; exact le_of_lt hlt)
      (by rw [hii]; exact le_of_eq heq)
    rw [h, hii]
    have hne : (toOrdinal (dates.getD j ⟨1, 1, 1⟩) : ℚ) -
        (toOrdinal (dates.getD (j - 1) ⟨1, 1, 1⟩) : ℚ) ≠ 0 := by
      have : (toOrdinal (dates.getD (j - 1) ⟨1, 1, 1⟩) : ℚ) <
          (toOrdinal (dates.getD j ⟨1, 1, 1⟩) : ℚ) := by exact_mod_cast hlt
      exact sub_ne_zero.2 (ne_of_gt this)
    rw [heq, mul_div_assoc, div_self hne]
    ring

/-- Witness for C2: boundary pass-through on a two-point series queried
at its first date. -/
theorem C2_interpolation_within_range_witness :
    2 ≤ ([⟨2023, 1, 1⟩, ⟨2023, 1, 11⟩] : List Date).length ∧
    estimate_price [⟨2023, 1, 1⟩, ⟨2023, 1, 11⟩] [10, 20] ⟨2023, 1, 1⟩ =
      ([10, 20] : List ℚ).getD 0 0 :=
  ⟨by norm_num,
   (C2_interpolation_within_range [⟨2023, 1, 1⟩, ⟨2023, 1, 11⟩] [10, 20]
      ⟨2023, 1, 1⟩ (by norm_num) (by norm_num)
      (by norm_num [List.chain'_cons, List.chain'_singleton, ordLt, toOrdinal,
        daysBeforeMonth, daysInMonth, leapBit, leapsUpTo, isLeap])).2 0
      (by norm_num) (by decide)⟩

/-- C3: on a series of at least two points sorted strictly ascending by
date, a query strictly outside `[min_date, max_date]` is answered by
evaluating, at the query ordinal, the ordinary-least-squares line fitted
over the whole series: the returned value equals `intercept + slope·x`
where the fitted coefficients satisfy the least-squares normal equations
and minimise the sum of squared errors over all lines through the
entire point set (a single global fit). -/
theorem C3_global_regression_outside_range (dates : List Date) (prices : List ℚ)
    (input_date : Date) (h2 : 2 ≤ dates.length)
    (hlen : prices.length = dates.length)
    (hsort : List.Chain' ordLt dates)
    (hout : toOrdinal input_date < ordsMin dates ∨
            ordsMax dates < toOrdinal input_date) :
    estimate_price dates prices input_date =
      olsIntercept (ordPoints dates prices) +
        olsSlope (ordPoints dates prices) * (toOrdinal input_date : ℚ) ∧
    residSum (ordPoints dates prices) (olsIntercept (ordPoints dates prices))
      (olsSlope (ordPoints dates prices)) = 0 ∧
    xResidSum (ordPoints dates prices) (olsIntercept (ordPoints dates prices))
      (olsSlope (ordPoints dates prices)) = 0 ∧
    ∀ a b : ℚ,
      SSE (ordPoints dates prices) (olsIntercept (ordPoints dates prices))
        (olsSlope (ordPoints dates prices)) ≤ SSE (ordPoints dates prices) a b := by
  have hplen : (ordPoints dates prices).length = dates.length :=
    ordPoints_length hlen
  have hppw := ordPoints_pairwise hlen (List.chain'_iff_pairwise.1 hsort)
  have hden : olsDen (ordPoints dates prices) ≠ 0 :=
    ne_of_gt (olsDen_pos _ hppw (by rw [hplen]; exact h2))
  have hn : ((ordPoints dates prices).length : ℚ) ≠ 0 := by
    rw [hplen]
    exact_mod_cast (by omega : dates.length ≠ 0)
  refine ⟨?_, (ols_normal_eqs _ hden hn).1, (ols_normal_eqs _ hden hn).2,
    ols_argmin _ hden hn⟩
  unfold estimate_price
  rw [if_neg]
  · rfl
  · rintro ⟨ha, hb⟩
    rcases hout with h | h <;> omega

/-- Witness for C3: a two-point series queried ten days past its last
date. -/
theorem C3_global_regression_outside_range_witness :
    (ordsMax [⟨2023, 1, 1⟩, ⟨2023, 1, 11⟩] < toOrdinal ⟨2023, 1, 21⟩) ∧
    estimate_price [⟨2023, 1, 1⟩, ⟨2023, 1, 11⟩] [10, 20] ⟨2023, 1, 21⟩ =
      olsIntercept (ordPoints [⟨2023, 1, 1⟩, ⟨2023, 1, 11⟩] [10, 20]) +
        olsSlope (ordPoints [⟨2023, 1, 1⟩, ⟨2023, 1, 11⟩] [10, 20]) *
          (toOrdinal ⟨2023, 1, 21⟩ : ℚ) :=
  ⟨by decide,
   (C3_global_regression_outside_range [⟨2023, 1, 1⟩, ⟨2023, 1, 11⟩] [10, 20]
      ⟨2023, 1, 21⟩ (by norm_num) (by norm_num)
      (by norm_num [List.chain'_cons, List.chain'_singleton, ordLt, toOrdinal,
        daysBeforeMonth, daysInMonth, leapBit, leapsUpTo, isLeap])
      (Or.inr (by decide))).1⟩

/-! ### Calendar arithmetic for the month-end sequence -/

lemma isLeap_eq_true_iff (y : ℕ) :
    isLeap y = true ↔ (y % 4 = 0 ∧ (y % 100 ≠ 0 ∨ y % 400 = 0)) := by
  simp [isLeap]

/-- The running leap count increases across year `y` by exactly the leap
bit of `y`. -/
lemma leapsUpTo_succ (y : ℕ) (hy : 1 ≤ y) :
    leapsUpTo y = leapsUpTo (y - 1) + leapBit y := by
  obtain ⟨n, rfl⟩ : ∃ n, y = n + 1 := ⟨y - 1, by omega⟩
  unfold leapsUpTo leapBit
  simp only [Nat.add_sub_cancel]
  by_cases hb : isLeap (n + 1) = true
  · have hmod := (isLeap_eq_true_iff (n + 1)).1 hb
    rw [if_pos hb]
    omega
  · have hmod : ¬((n + 1) % 4 = 0 ∧ ((n + 1) % 100 ≠ 0 ∨ (n + 1) % 400 = 0)) := by
      rw [← isLeap_eq_true_iff]; exact hb
    rw [if_neg hb]
    omega

lemma daysInMonth_pos (y m : ℕ) : 0 < daysInMonth y m := by
  unfold daysInMonth
  split <;> (try split_ifs) <;> norm_num

/-- Within a year, the day count before month `m+1` is the day count
before `m` plus the length of `m`. -/
lemma daysBeforeMonth_succ (y m : ℕ) (h1 : 1 ≤ m) (h2 : m ≤ 11) :
    daysBeforeMonth y (m + 1) = daysBeforeMonth y m + daysInMonth y m := by
  interval_cases m <;>
    simp [daysBeforeMonth, daysInMonth, leapBit] <;>
    split_ifs <;> norm_num

/-- Consecutive month-end dates have strictly increasing ordinals. -/
lemma ord_monthEnd_lt (mi : ℕ) (h : 12 ≤ mi) :
    toOrdinal (monthEndOfIndex mi) < toOrdinal (monthEndOfIndex (mi + 1)) := by
  have hy : 1 ≤ mi / 12 := by omega
  have hr : mi % 12 < 12 := Nat.mod_lt _ (by norm_num)
  by_cases hcase : mi % 12 ≤ 10
  · have e1 : (mi + 1) / 12 = mi / 12 := by omega
    have e2 : (mi + 1) % 12 = mi % 12 + 1 := by omega
    unfold monthEndOfIndex toOrdinal
    rw [e1, e2]
    simp only
    have hsucc := daysBeforeMonth_succ (mi / 12) (mi % 12 + 1) (by omega) (by omega)
    have hpos := daysInMonth_pos (mi / 12) (mi % 12 + 1 + 1)
    omega
  · have hr11 : mi % 12 = 11 := by omega
    have e1 : (mi + 1) / 12 = mi / 12 + 1 := by omega
    have e2 : (mi + 1) % 12 = 0 := by omega
    unfold monthEndOfIndex toOrdinal
    rw [e1, e2, hr11]
    have hl := leapsUpTo_succ (mi / 12) hy
    have h12 : daysBeforeMonth (mi / 12) 12 = 334 + leapBit (mi / 12) := by
      simp [daysBeforeMonth]
    have h1 : daysBeforeMonth (mi / 12 + 1) 1 = 0 := by
      simp [daysBeforeMonth]
    have hd12 : daysInMonth (mi / 12) 12 = 31 := by simp [daysInMonth]
    have hd1 : daysInMonth (mi / 12 + 1) 1 = 31 := by simp [daysInMonth]
    simp only [Nat.add_sub_cancel] at hl ⊢
    rw [h12, h1, hd12, hd1, hl]
    have hlb : leapBit (mi / 12) ≤ 1 := by
      unfold leapBit; split_ifs <;> norm_num
    omega

lemma monthIndex_addOneMonth (dt : Date) :
    monthIndex (addOneMonth dt) = monthIndex dt + 1 := by
  unfold addOneMonth monthIndex
  simp only
  omega

lemma monthIndex_monthEndOfIndex (mi : ℕ) :
    monthIndex (monthEndOfIndex mi) = mi := by
  unfold monthEndOfIndex monthIndex
  simp only
  omega

/-- One month after any date still lies on or before that month's
month-end. -/
lemma addOneMonth_le_monthEnd (dt : Date) :
    toOrdinal (addOneMonth dt) ≤
      toOrdinal (monthEndOfIndex (monthIndex (addOneMonth dt))) := by
  rw [monthIndex_addOneMonth]
  unfold addOneMonth monthEndOfIndex toOrdinal
  simp only
  have := Nat.min_le_right dt.d
    (daysInMonth ((monthIndex dt + 1) / 12) ((monthIndex dt + 1) % 12 + 1))
  omega

/-- The month-end range generated from one month past `dt` lists the
month-ends of the months `monthIndex dt + 1, monthIndex dt + 2, …`. -/
lemma dateRangeMonthEnds_addOneMonth (dt : Date) (n : ℕ) :
    dateRangeMonthEnds (addOneMonth dt) n =
      (List.range n).map (fun k => monthEndOfIndex (monthIndex dt + 1 + k)) := by
  simp only [dateRangeMonthEnds]
  rw [if_pos (addOneMonth_le_monthEnd dt), monthIndex_addOneMonth]

/-- The generated month-end dates are strictly increasing. -/
lemma chain'_monthEnds (mi0 n : ℕ) (h : 12 ≤ mi0) :
    List.Chain' ordLt ((List.range n).map (fun k => monthEndOfIndex (mi0 + k))) := by
  rw [List.chain'_iff_get]
  intro i hi
  simp only [List.get_eq_getElem, List.getElem_map, List.getElem_range]
  have : mi0 + (i + 1) = (mi0 + i) + 1 := by omega
  rw [this]
  exact ord_monthEnd_lt (mi0 + i) (by omega)

lemma indexPoints_length {prices : List ℚ} {n : ℕ} (hlen : prices.length = n) :
    (indexPoints prices n).length = n := by
  unfold indexPoints
  rw [List.length_zip, List.length_map, List.length_range, hlen]
  exact Nat.min_self n

lemma indexPoints_pairwise (prices : List ℚ) (n : ℕ) (hlen : prices.length = n) :
    (indexPoints prices n).Pairwise (fun p q => p.1 < q.1) := by
  have hmap : ((List.range n).map (fun i : ℕ => ((i : ℚ)))).Pairwise (· < ·) := by
    rw [List.pairwise_map]
    exact (List.pairwise_lt_range n).imp (fun h => by exact_mod_cast h)
  have hfst : ((indexPoints prices n).map Prod.fst).Pairwise (· < ·) := by
    rw [indexPoints, List.map_fst_zip]
    · exact hmap
    · rw [List.length_map, List.length_range, hlen]
  rw [List.pairwise_map] at hfst
  exact hfst

lemma chain'_zip_fst {l : List Date} {l' : List ℚ} (h : List.Chain' ordLt l) :
    List.Chain' (fun p q : Date × ℚ => ordLt p.1 q.1) (l.zip l') := by
  rw [List.chain'_iff_get] at h ⊢
  intro i hi
  have hil : i < l.length - 1 := by
    have := hi
    simp [List.length_zip] at this
    omega
  simp only [List.get_eq_getElem, List.getElem_zip]
  exact h i hil

lemma foldl_max_mem : ∀ (ds : List Date) (a : Date),
    ds.foldl (fun a e => if toOrdinal a < toOrdinal e then e else a) a = a ∨
    ds.foldl (fun a e => if toOrdinal a < toOrdinal e then e else a) a ∈ ds := by
  intro ds
  induction ds with
  | nil => intro a; exact Or.inl rfl
  | cons d t ih =>
      intro a
      rcases ih (if toOrdinal a < toOrdinal d then d else a) with h | h
      · rw [List.foldl_cons, h]
        split_ifs with hc
        · exact Or.inr (List.mem_cons_self d t)
        · exact Or.inl rfl
      · exact Or.inr (List.mem_cons_of_mem d (by rw [List.foldl_cons]; exact h))

/-- `data['Dates'].max()` is one of the dates, for a non-empty column. -/
lemma maxDateOf_mem {dates : List Date} (h : dates ≠ []) :
    maxDateOf dates ∈ dates := by
  match dates, h with
  | d :: ds, _ =>
    rcases foldl_max_mem ds d with h' | h'
    · rw [maxDateOf, h']
      exact List.mem_cons_self d ds
    · exact List.mem_cons_of_mem d h'

/-- C4: on a series of at least two calendar-dated points,
`extrapolate_future_prices` returns exactly `months` rows (none for
`months = 0`); the dates are the month-end dates of the consecutive
months starting one calendar month after the last observed date, so they
are strictly increasing at monthly month-end spacing; and the prices are
the least-squares line fitted to price against the row index `0,1,2,…`
(equally spaced by record order), evaluated at indices
`len .. len+months−1`, where the fitted coefficients satisfy the
least-squares normal equations and minimise the sum of squared
errors. -/
theorem C4_extrapolation_shape (dates : List Date) (prices : List ℚ) (months : ℕ)
    (h2 : 2 ≤ dates.length) (hlen : prices.length = dates.length)
    (hval : ∀ d ∈ dates, ValidDate d) :
    extrapolate_future_prices dates prices 0 = [] ∧
    (extrapolate_future_prices dates prices months).length = months ∧
    List.Chain' (fun p q : Date × ℚ => ordLt p.1 q.1)
      (extrapolate_future_prices dates prices months) ∧
    (∀ k, k < months →
      (extrapolate_future_prices dates prices months).getD k (⟨1, 1, 1⟩, 0) =
        (monthEndOfIndex (monthIndex (maxDateOf dates) + 1 + k),
         olsPredict (indexPoints prices dates.length)
           ((dates.length + k : ℕ) : ℚ))) ∧
    residSum (indexPoints prices dates.length)
      (olsIntercept (indexPoints prices dates.length))
      (olsSlope (indexPoints prices dates.length)) = 0 ∧
    xResidSum (indexPoints prices dates.length)
      (olsIntercept (indexPoints prices dates.length))
      (olsSlope (indexPoints prices dates.length)) = 0 ∧
    ∀ a b : ℚ,
      SSE (indexPoints prices dates.length)
        (olsIntercept (indexPoints prices dates.length))
        (olsSlope (indexPoints prices dates.length)) ≤
      SSE (indexPoints prices dates.length) a b := by
  have hne : dates ≠ [] := by
    intro hnil
    rw [hnil] at h2
    simp at h2
  have hy : 1 ≤ (maxDateOf dates).y := (hval _ (maxDateOf_mem hne)).1
  have hmi : 12 ≤ monthIndex (maxDateOf dates) + 1 := by
    unfold monthIndex
    omega
  have hplen : (indexPoints prices dates.length).length = dates.length :=
    indexPoints_length hlen
  have hden : olsDen (indexPoints prices dates.length) ≠ 0 :=
    ne_of_gt (olsDen_pos _ (indexPoints_pairwise prices dates.length hlen)
      (by rw [hplen]; exact h2))
  have hn : ((indexPoints prices dates.length).length : ℚ) ≠ 0 := by
    rw [hplen]
    exact_mod_cast (by omega : dates.length ≠ 0)
  refine ⟨?_, ?_, ?_, ?_, (ols_normal_eqs _ hden hn).1,
    (ols_normal_eqs _ hden hn).2, ols_argmin _ hden hn⟩
  · simp [extrapolate_future_prices, dateRangeMonthEnds]
  · simp only [extrapolate_future_prices]
    rw [dateRangeMonthEnds_addOneMonth]
    simp [List.length_zip]
  · simp only [extrapolate_future_prices]
    rw [dateRangeMonthEnds_addOneMonth]
    exact chain'_zip_fst (chain'_monthEnds _ months hmi)
  · intro k hk
    simp only [extrapolate_future_prices]
    rw [dateRangeMonthEnds_addOneMonth]
    have hzl : k < (((List.range months).map
        (fun j => monthEndOfIndex (monthIndex (maxDateOf dates) + 1 + j))).zip
        ((List.range months).map (fun j =>
          olsPredict (indexPoints prices dates.length)
            ((dates.length + j : ℕ) : ℚ)))).length := by
      simp [List.length_zip]
      omega
    rw [List.getD_eq_getElem _ _ hzl]
    simp only [List.getElem_zip, List.getElem_map, List.getElem_range]

/-- Witness for C4 on a concrete two-point January–February series
extrapolated two months. -/
theorem C4_extrapolation_shape_witness :
    (∀ d ∈ ([⟨2023, 1, 31⟩, ⟨2023, 2, 28⟩] : List Date), ValidDate d) ∧
    (extrapolate_future_prices [⟨2023, 1, 31⟩, ⟨2023, 2, 28⟩] [1, 2] 2).length = 2 :=
  ⟨by decide,
   (C4_extrapolation_shape [⟨2023, 1, 31⟩, ⟨2023, 2, 28⟩] [1, 2] 2
      (by norm_num) (by norm_num) (by decide)).2.1⟩

end GasRepo
